import Mathlib

/-!
Verification of the certificate-maker server (src/Server.js).

The file shallowly embeds the parts of the program the claims are about:

* the participant-name normalization expression
  `name.trim().split(' ').map(w => w.charAt(0).toUpperCase() + w.slice(1)).join(' ')`;
* JS `parseInt(·, 10)` and the two variants of the X/Y draw-position
  computation;
* reading the participants file (`split('\n').filter(Boolean)`);
* the certificate-generation loop, archive building, response and cleanup
  flow of the `POST /generate-certificates` handler (both variants);
* the `GET /fonts` proxy handler;
* `path.join` segment resolution for the certificate output path.

Strings are modelled as Lean `String`/`List Char`; `toUpperCase` on the
first character of a word is modelled by core `Char.toUpper` (basic-latin
uppercasing, faithful to the source on ASCII input).
-/

namespace CertMaker

/-- Whitespace test of JS `String.prototype.trim`, restricted to the four
whitespace characters relevant here (space, tab, LF, CR). -/
def isWsChar (c : Char) : Bool :=
  c = ' ' || c = '\t' || c = '\n' || c = '\r'

/-- Model of JS `String.prototype.trim` on the character list: drop
whitespace from both ends. -/
def jsTrim (l : List Char) : List Char :=
  (l.dropWhile isWsChar).rdropWhile isWsChar

/-- Model of JS `String.prototype.split(' ')` (single-space separator,
empty pieces kept, `""` splits to `[""]`). -/
def splitSp : List Char → List (List Char)
  | [] => [[]]
  | c :: cs =>
    if c = ' ' then [] :: splitSp cs
    else
      match splitSp cs with
      | [] => [[c]]
      | w :: ws => (c :: w) :: ws

/-- Model of `word.charAt(0).toUpperCase() + word.slice(1)` from the
generation loop: uppercase the first character, keep the rest. -/
def capWord : List Char → List Char
  | [] => []
  | c :: cs => Char.toUpper c :: cs

/-- Model of JS `Array.prototype.join(' ')`. -/
def joinSp : List (List Char) → List Char
  | [] => []
  | [w] => w
  | w :: ws => w ++ ' ' :: joinSp ws

/-- The name-normalization expression of the generation loop
(`src/Server.js` line 93 and line 258):
`name.trim().split(' ').map(w => w.charAt(0).toUpperCase() + w.slice(1)).join(' ')`. -/
def normalizeList (l : List Char) : List Char :=
  joinSp ((splitSp (jsTrim l)).map capWord)

/-- String wrapper of `normalizeList`. -/
def normalizeName (s : String) : String :=
  String.mk (normalizeList s.data)

example : normalizeName "alice smith" = "Alice Smith" := by decide
example : normalizeName "  bob jones " = "Bob Jones" := by decide
example : normalizeName "ann  lee" = "Ann  Lee" := by decide
example : normalizeName "" = "" := by decide
example : normalizeName "   " = "" := by decide

/-! ### Character-level facts -/

theorem toNat_charOfNat {n : Nat} (h : n < 55296) : (Char.ofNat n).toNat = n := by
  rw [Char.ofNat, dif_pos (Or.inl h)]
  rfl

theorem char_eq_iff_toNat {c d : Char} : c = d ↔ c.toNat = d.toNat := by
  constructor
  · intro h; rw [h]
  · intro h
    exact Char.ext (UInt32.ext h)

theorem toUpper_toNat_of_lower {c : Char} (h1 : 97 ≤ c.toNat) (h2 : c.toNat ≤ 122) :
    (Char.toUpper c).toNat = c.toNat - 32 := by
  rw [Char.toUpper, if_pos ⟨h1, h2⟩]
  exact toNat_charOfNat (by omega)

theorem toUpper_eq_self {c : Char} (h : ¬(97 ≤ c.toNat ∧ c.toNat ≤ 122)) :
    Char.toUpper c = c := by
  rw [Char.toUpper, if_neg h]

theorem toUpper_toUpper (c : Char) : Char.toUpper (Char.toUpper c) = Char.toUpper c := by
  by_cases h : 97 ≤ c.toNat ∧ c.toNat ≤ 122
  · have hn : (Char.toUpper c).toNat = c.toNat - 32 := toUpper_toNat_of_lower h.1 h.2
    apply toUpper_eq_self
    omega
  · conv_lhs => rw [toUpper_eq_self h]

theorem isWsChar_iff {c : Char} :
    isWsChar c = true ↔ (c.toNat = 32 ∨ c.toNat = 9 ∨ c.toNat = 10 ∨ c.toNat = 13) := by
  simp only [isWsChar, Bool.or_eq_true, decide_eq_true_eq]
  rw [@char_eq_iff_toNat c ' ', @char_eq_iff_toNat c '\t',
    @char_eq_iff_toNat c '\n', @char_eq_iff_toNat c '\r',
    show (' ').toNat = 32 from by decide, show ('\t').toNat = 9 from by decide,
    show ('\n').toNat = 10 from by decide, show ('\r').toNat = 13 from by decide]
  tauto

theorem isWs_toUpper {c : Char} (h : isWsChar c = false) :
    isWsChar (Char.toUpper c) = false := by
  by_cases hl : 97 ≤ c.toNat ∧ c.toNat ≤ 122
  · have hn : (Char.toUpper c).toNat = c.toNat - 32 := toUpper_toNat_of_lower hl.1 hl.2
    rw [Bool.eq_false_iff]
    intro hw
    rw [isWsChar_iff] at hw
    omega
  · rw [toUpper_eq_self hl]
    exact h

theorem toUpper_ne_space {c : Char} (h : c ≠ ' ') : Char.toUpper c ≠ ' ' := by
  by_cases hl : 97 ≤ c.toNat ∧ c.toNat ≤ 122
  · have hn : (Char.toUpper c).toNat = c.toNat - 32 := toUpper_toNat_of_lower hl.1 hl.2
    rw [ne_eq, char_eq_iff_toNat, hn, show (' ').toNat = 32 from by decide]
    omega
  · rw [toUpper_eq_self hl]
    exact h

theorem space_isWs : isWsChar ' ' = true := by decide

theorem ne_space_of_not_ws {c : Char} (h : isWsChar c = false) : c ≠ ' ' := by
  intro he
  rw [he] at h
  exact absurd h (by decide)

/-! ### Facts about split, join, capWord -/

theorem splitSp_ne_nil (l : List Char) : splitSp l ≠ [] := by
  cases l with
  | nil => simp [splitSp]
  | cons c cs =>
    rw [splitSp]
    by_cases h : c = ' '
    · simp [h]
    · rw [if_neg h]
      cases splitSp cs <;> simp

theorem mem_splitSp_no_space {l : List Char} {w : List Char} (h : w ∈ splitSp l) :
    ' ' ∉ w := by
  induction l generalizing w with
  | nil =>
    simp only [splitSp, List.mem_singleton] at h
    simp [h]
  | cons c cs ih =>
    rw [splitSp] at h
    by_cases hc : c = ' '
    · rw [if_pos hc] at h
      rcases List.mem_cons.mp h with h1 | h2
      · simp [h1]
      · exact ih h2
    · rw [if_neg hc] at h
      rcases hw : splitSp cs with _ | ⟨w0, ws0⟩
      · exact absurd hw (splitSp_ne_nil cs)
      · rw [hw] at h
        rcases List.mem_cons.mp h with h1 | h2
        · subst h1
          intro hmem
          rcases List.mem_cons.mp hmem with h3 | h4
          · exact hc h3.symm
          · exact ih (hw ▸ List.mem_cons_self w0 ws0) h4
        · exact ih (hw ▸ List.mem_cons.mpr (Or.inr h2))

theorem splitSp_no_space {w : List Char} (hw : ' ' ∉ w) : splitSp w = [w] := by
  induction w with
  | nil => rfl
  | cons c cs ih =>
    have hc : c ≠ ' ' := fun h => hw (h ▸ List.mem_cons_self c cs)
    have hcs : ' ' ∉ cs := fun h => hw (List.mem_cons.mpr (Or.inr h))
    rw [splitSp, if_neg (fun h => hc h), ih hcs]

theorem splitSp_append_space {w t : List Char} (hw : ' ' ∉ w) :
    splitSp (w ++ ' ' :: t) = w :: splitSp t := by
  induction w with
  | nil => simp [splitSp]
  | cons c cs ih =>
    have hc : c ≠ ' ' := fun h => hw (h ▸ List.mem_cons_self c cs)
    have hcs : ' ' ∉ cs := fun h => hw (List.mem_cons.mpr (Or.inr h))
    rw [List.cons_append, splitSp, if_neg (fun h => hc h), ih hcs]

theorem joinSp_cons_cons (w w2 : List Char) (ws : List (List Char)) :
    joinSp (w :: w2 :: ws) = w ++ ' ' :: joinSp (w2 :: ws) := rfl

theorem getLast?_cons_of_ne_nil {α : Type} (a : α) {l : List α} (h : l ≠ []) :
    (a :: l).getLast? = l.getLast? := by
  cases l with
  | nil => exact absurd rfl h
  | cons b t => exact List.getLast?_cons_cons

theorem splitSp_joinSp {ws : List (List Char)} (hne : ws ≠ [])
    (h : ∀ w ∈ ws, ' ' ∉ w) : splitSp (joinSp ws) = ws := by
  induction ws with
  | nil => exact absurd rfl hne
  | cons w rest ih =>
    cases rest with
    | nil =>
      rw [joinSp]
      exact splitSp_no_space (h w (List.mem_cons_self _ _))
    | cons w2 rest2 =>
      rw [joinSp_cons_cons, splitSp_append_space (h w (List.mem_cons_self _ _))]
      rw [ih (by simp) (fun x hx => h x (List.mem_cons.mpr (Or.inr hx)))]

theorem capWord_capWord (w : List Char) : capWord (capWord w) = capWord w := by
  cases w with
  | nil => rfl
  | cons c cs => simp [capWord, toUpper_toUpper]

theorem capWord_no_space {w : List Char} (h : ' ' ∉ w) : ' ' ∉ capWord w := by
  cases w with
  | nil => simp [capWord]
  | cons c cs =>
    have hc : c ≠ ' ' := fun hh => h (hh ▸ List.mem_cons_self c cs)
    have hcs : ' ' ∉ cs := fun hh => h (List.mem_cons.mpr (Or.inr hh))
    rw [capWord]
    intro hmem
    rcases List.mem_cons.mp hmem with h1 | h2
    · exact toUpper_ne_space hc h1.symm
    · exact hcs h2

theorem joinSp_head? {w : List Char} {ws : List (List Char)} (hw : w ≠ []) :
    (joinSp (w :: ws)).head? = w.head? := by
  cases ws with
  | nil => rfl
  | cons w2 rest =>
    rw [joinSp_cons_cons]
    cases w with
    | nil => exact absurd rfl hw
    | cons c cs => rfl

theorem joinSp_ne_nil_of_cons {w w2 : List Char} {ws : List (List Char)} :
    joinSp (w :: w2 :: ws) ≠ [] := by
  rw [joinSp_cons_cons]
  cases w <;> simp

theorem joinSp_getLast? {ws : List (List Char)} {w : List Char}
    (h : ws.getLast? = some w) (hw : w ≠ []) :
    (joinSp ws).getLast? = w.getLast? := by
  induction ws with
  | nil => simp at h
  | cons x rest ih =>
    cases rest with
    | nil =>
      simp only [List.getLast?_singleton, Option.some.injEq] at h
      rw [joinSp, h]
    | cons y rest2 =>
      rw [List.getLast?_cons_cons] at h
      have hj : joinSp (y :: rest2) ≠ [] := by
        cases rest2 with
        | nil =>
          simp only [List.getLast?_singleton, Option.some.injEq] at h
          rw [joinSp]
          exact h ▸ hw
        | cons z rest3 => exact joinSp_ne_nil_of_cons
      rw [joinSp_cons_cons, List.getLast?_append,
        getLast?_cons_of_ne_nil _ hj, ih h]
      cases hg : w.getLast? with
      | none =>
        rcases w with _ | ⟨a, b⟩
        · exact absurd rfl hw
        · rw [List.getLast?_eq_getLast (a :: b) (by simp)] at hg
          simp at hg
      | some d => simp

theorem splitSp_head {c : Char} (cs : List Char) (h : c ≠ ' ') :
    ∃ w ws, splitSp (c :: cs) = (c :: w) :: ws := by
  rw [splitSp, if_neg (fun hh => h hh)]
  rcases hw : splitSp cs with _ | ⟨w0, ws0⟩
  · exact absurd hw (splitSp_ne_nil cs)
  · exact ⟨w0, ws0, rfl⟩

theorem splitSp_getLast? {t : List Char} {c : Char} (ht : t.getLast? = some c)
    (hc : c ≠ ' ') :
    ∃ w, (splitSp t).getLast? = some w ∧ w.getLast? = some c := by
  induction t with
  | nil => simp at ht
  | cons x rest ih =>
    cases rest with
    | nil =>
      simp only [List.getLast?_singleton, Option.some.injEq] at ht
      subst ht
      refine ⟨[x], ?_, rfl⟩
      rw [splitSp, if_neg (fun hh => hc hh)]
      rfl
    | cons y rest2 =>
      rw [List.getLast?_cons_cons] at ht
      obtain ⟨w, hw1, hw2⟩ := ih ht
      have hwne : w ≠ [] := by
        intro hwnil
        rw [hwnil] at hw2
        simp at hw2
      by_cases hx : x = ' '
      · refine ⟨w, ?_, hw2⟩
        rw [splitSp, if_pos hx, getLast?_cons_of_ne_nil _ (splitSp_ne_nil _), hw1]
      · rcases hsp : splitSp (y :: rest2) with _ | ⟨a, b⟩
        · exact absurd hsp (splitSp_ne_nil _)
        · rw [hsp] at hw1
          rw [splitSp, if_neg hx, hsp]
          cases b with
          | nil =>
            simp only [List.getLast?_singleton, Option.some.injEq] at hw1
            subst hw1
            refine ⟨x :: a, by simp, ?_⟩
            rw [getLast?_cons_of_ne_nil _ hwne]
            exact hw2
          | cons b1 b2 =>
            rw [List.getLast?_cons_cons] at hw1
            exact ⟨w, by rw [List.getLast?_cons_cons]; exact hw1, hw2⟩

theorem capWord_getLast?_ws {w : List Char} {c : Char} (hw : w.getLast? = some c)
    (hc : isWsChar c = false) :
    ∃ d, (capWord w).getLast? = some d ∧ isWsChar d = false := by
  cases w with
  | nil => simp at hw
  | cons x rest =>
    cases rest with
    | nil =>
      simp only [List.getLast?_singleton, Option.some.injEq] at hw
      refine ⟨Char.toUpper x, rfl, ?_⟩
      rw [hw]
      exact isWs_toUpper hc
    | cons y rest2 =>
      rw [List.getLast?_cons_cons] at hw
      refine ⟨c, ?_, hc⟩
      rw [capWord, List.getLast?_cons_cons, hw]

/-! ### Facts about trim -/

theorem head?_append_left {α : Type} {x s : List α} {c : α} (h : x.head? = some c) :
    (x ++ s).head? = some c := by
  cases x with
  | nil => simp at h
  | cons a t => simpa using h

theorem head?_dropWhile_false {p : Char → Bool} {l : List Char} {c : Char}
    (h : (l.dropWhile p).head? = some c) : p c = false := by
  have hm := List.head?_dropWhile_not p l
  rw [h] at hm
  exact hm

theorem jsTrim_head?_not_ws {l : List Char} {c : Char}
    (h : (jsTrim l).head? = some c) : isWsChar c = false := by
  have hdecomp :
      (l.dropWhile isWsChar).rdropWhile isWsChar ++
        ((l.dropWhile isWsChar).reverse.takeWhile isWsChar).reverse =
        l.dropWhile isWsChar := by
    rw [List.rdropWhile, ← List.reverse_append, List.takeWhile_append_dropWhile,
      List.reverse_reverse]
  have h2 : (l.dropWhile isWsChar).head? = some c := by
    rw [← hdecomp]
    exact head?_append_left h
  exact head?_dropWhile_false h2

theorem jsTrim_getLast?_not_ws {l : List Char} {c : Char}
    (h : (jsTrim l).getLast? = some c) : isWsChar c = false := by
  have hne : jsTrim l ≠ [] := by
    intro hn
    rw [hn] at h
    simp at h
  have hlast := List.rdropWhile_last_not isWsChar (l.dropWhile isWsChar) hne
  rw [List.getLast?_eq_getLast _ hne] at h
  rw [Option.some.injEq] at h
  rw [← h]
  exact Bool.not_eq_true _ ▸ hlast

theorem jsTrim_eq_self {l : List Char}
    (h1 : ∀ c, l.head? = some c → isWsChar c = false)
    (h2 : ∀ c, l.getLast? = some c → isWsChar c = false) : jsTrim l = l := by
  have hd : l.dropWhile isWsChar = l := by
    cases l with
    | nil => rfl
    | cons a t =>
      have ha := h1 a rfl
      rw [List.dropWhile_cons, if_neg (by simp [ha])]
  rw [jsTrim, hd, List.rdropWhile_eq_self_iff]
  intro hl
  rw [Bool.not_eq_true]
  exact h2 _ (List.getLast?_eq_getLast l hl)

/-! ### Normalization is a fixpoint of trim, and idempotent -/

theorem normalizeList_trim_fix (l : List Char) :
    jsTrim (normalizeList l) = normalizeList l := by
  rcases ht : jsTrim l with _ | ⟨c, rest⟩
  · have hz : normalizeList l = [] := by
      rw [normalizeList, ht]
      rfl
    rw [hz]
    rfl
  · have hc : isWsChar c = false := jsTrim_head?_not_ws (l := l) (by rw [ht]; rfl)
    have hcsp : c ≠ ' ' := ne_space_of_not_ws hc
    have hne : jsTrim l ≠ [] := by rw [ht]; simp
    have hdlast : (jsTrim l).getLast? = some ((jsTrim l).getLast hne) :=
      List.getLast?_eq_getLast _ hne
    have hdws : isWsChar ((jsTrim l).getLast hne) = false :=
      jsTrim_getLast?_not_ws hdlast
    have hdsp : (jsTrim l).getLast hne ≠ ' ' := ne_space_of_not_ws hdws
    obtain ⟨w0, ws0, hsplit⟩ := splitSp_head rest hcsp
    obtain ⟨wl, hwl1, hwl2⟩ := splitSp_getLast? hdlast hdsp
    apply jsTrim_eq_self
    · intro e he
      simp only [normalizeList] at he
      rw [ht, hsplit, List.map_cons] at he
      rw [joinSp_head? (by simp [capWord])] at he
      simp only [capWord, List.head?_cons, Option.some.injEq] at he
      rw [← he]
      exact isWs_toUpper hc
    · intro e he
      obtain ⟨d2, hd21, hd22⟩ := capWord_getLast?_ws hwl2 hdws
      have hmap : ((splitSp (jsTrim l)).map capWord).getLast? = some (capWord wl) := by
        rw [List.getLast?_map, hwl1]
        rfl
      have hcwne : capWord wl ≠ [] := by
        intro hz
        rw [hz] at hd21
        simp at hd21
      simp only [normalizeList] at he
      rw [joinSp_getLast? hmap hcwne, hd21, Option.some.injEq] at he
      rw [← he]
      exact hd22

theorem normalizeList_idem (l : List Char) :
    normalizeList (normalizeList l) = normalizeList l := by
  have htrim : jsTrim (normalizeList l) = normalizeList l := normalizeList_trim_fix l
  have hsplit : splitSp (normalizeList l) = (splitSp (jsTrim l)).map capWord := by
    simp only [normalizeList]
    apply splitSp_joinSp
    · intro hz
      rw [List.map_eq_nil_iff] at hz
      exact splitSp_ne_nil _ hz
    · intro w hw
      rw [List.mem_map] at hw
      obtain ⟨w0, hw0, hcap⟩ := hw
      rw [← hcap]
      exact capWord_no_space (mem_splitSp_no_space hw0)
  calc normalizeList (normalizeList l)
      = joinSp ((splitSp (jsTrim (normalizeList l))).map capWord) := rfl
    _ = joinSp ((splitSp (normalizeList l)).map capWord) := by rw [htrim]
    _ = joinSp (((splitSp (jsTrim l)).map capWord).map capWord) := by rw [hsplit]
    _ = joinSp ((splitSp (jsTrim l)).map capWord) := by
          rw [List.map_map]
          congr 1
          apply List.map_congr_left
          intro w hw
          simp [Function.comp, capWord_capWord]
    _ = normalizeList l := rfl

/-- C3: name normalization (trim, split on single spaces, uppercase the first
character of each word, rejoin with single spaces — `src/Server.js` line 93) is
idempotent: normalizing an already-normalized name yields the same string. -/
theorem normalizeName_idempotent (s : String) :
    normalizeName (normalizeName s) = normalizeName s := by
  simp only [normalizeName]
  exact congrArg String.mk (normalizeList_idem s.data)

/-! ### JS parseInt(·, 10) -/

/-- Numeric value of the decimal-digit prefix of a character list. -/
def digitsToNat (l : List Char) : Nat :=
  l.foldl (fun a c => a * 10 + (c.toNat - 48)) 0

/-- Model of JS `parseInt(s, 10)`: skip leading whitespace, read an optional
sign, then the longest prefix of decimal digits; `none` models `NaN` (no
digits found). -/
def parseIntJS (s : String) : Option Int :=
  let l := s.data.dropWhile isWsChar
  match l with
  | '-' :: r =>
    if (r.takeWhile Char.isDigit) = [] then none
    else some (-(digitsToNat (r.takeWhile Char.isDigit) : Int))
  | '+' :: r =>
    if (r.takeWhile Char.isDigit) = [] then none
    else some ((digitsToNat (r.takeWhile Char.isDigit) : Int))
  | _ =>
    if (l.takeWhile Char.isDigit) = [] then none
    else some ((digitsToNat (l.takeWhile Char.isDigit) : Int))

example : parseIntJS "42" = some 42 := by decide
example : parseIntJS "  -7px" = some (-7) := by decide
example : parseIntJS "abc" = none := by decide
example : parseIntJS "0" = some 0 := by decide
example : parseIntJS "" = none := by decide

/-- A JS value as it reaches `ctx.fillText`: a finite number, `NaN`, or a raw
string (variant 2 can pass the request's `yPosition` string through). -/
inductive JSVal where
  | num (q : ℚ)
  | nan
  | str (s : String)
deriving DecidableEq

/-- The destructured request field `xPosition`/`yPosition` with its default:
`none` models an absent field, which defaults to the number `0`; `parseInt`
stringifies its argument, so the defaulted value reads as `"0"`. -/
def fieldString (v : Option String) : String :=
  match v with
  | none => "0"
  | some s => s

/-- The raw destructured field value as a JS value (`0` when absent). -/
def rawField (v : Option String) : JSVal :=
  match v with
  | none => JSVal.num 0
  | some s => JSVal.str s

/-- Variant 1 (`src/Server.js` lines 103-104):
`const adjustedXPosition = parseInt(xPosition, 10);` — the parse result is
passed to `fillText` unchanged, so a failed parse is `NaN`. Same shape for Y. -/
def adjustedPosition1 (v : Option String) : JSVal :=
  match parseIntJS (fieldString v) with
  | some n => JSVal.num (n : ℚ)
  | none => JSVal.nan

/-- The horizontal-centering fallback `(template.width - textWidth) / 2`
(variant 2, line 271). -/
def centerX (width textWidth : ℚ) : ℚ :=
  (width - textWidth) / 2

/-- Variant 2 (line 271):
`const adjustedXPosition = parseInt(xPosition, 10) || (template.width - textWidth) / 2;`
— `NaN` and `0` are falsy, so both fall back to the centered position. -/
def adjustedXPosition2 (v : Option String) (width textWidth : ℚ) : JSVal :=
  match parseIntJS (fieldString v) with
  | some n => if n = 0 then JSVal.num (centerX width textWidth) else JSVal.num (n : ℚ)
  | none => JSVal.num (centerX width textWidth)

/-- Variant 2 (line 272):
`const adjustedYPosition = parseInt(yPosition, 10) || yPosition;` — `NaN` and
`0` are falsy, so both fall back to the raw request value. -/
def adjustedYPosition2 (v : Option String) : JSVal :=
  match parseIntJS (fieldString v) with
  | some n => if n = 0 then rawField v else JSVal.num (n : ℚ)
  | none => rawField v

example : adjustedPosition1 (some "abc") = JSVal.nan := by decide
example : adjustedPosition1 none = JSVal.num 0 := by decide
example : adjustedPosition1 (some "250") = JSVal.num 250 := by decide
example : adjustedXPosition2 (some "0") 100 40 = JSVal.num (centerX 100 40) := rfl
example : adjustedYPosition2 (some "abc") = JSVal.str "abc" := by decide
example : adjustedYPosition2 none = JSVal.num 0 := by decide

/-! ### Participants file: split('\n').filter(Boolean) -/

/-- Model of JS `String.prototype.split('\n')`. -/
def splitNl : List Char → List (List Char)
  | [] => [[]]
  | c :: cs =>
    if c = '\n' then [] :: splitNl cs
    else
      match splitNl cs with
      | [] => [[c]]
      | w :: ws => (c :: w) :: ws

/-- `src/Server.js` line 81:
`fs.readFileSync(participantsPath, 'utf-8').split('\n').filter(Boolean)`.
`filter(Boolean)` keeps exactly the non-empty lines (the empty string is the
only falsy string). -/
def participantNamesOf (content : String) : List String :=
  ((splitNl content.data).filter (fun l => decide (l ≠ []))).map String.mk

example : participantNamesOf "alice smith\n\nbob jones\n" = ["alice smith", "bob jones"] := by
  decide
example : participantNamesOf "" = [] := by decide
example : participantNamesOf "\n\n" = [] := by decide
example : participantNamesOf " \n" = [" "] := by decide

/-! ### Certificates directory, generation loop, archive -/

/-- The certificates working directory: a list of (file name, file content)
entries in creation order. -/
abbrev Store := List (String × String)

/-- Directory lookup by file name. -/
def storeLookup (s : Store) (k : String) : Option String :=
  match s with
  | [] => none
  | (k2, v) :: t => if k2 = k then some v else storeLookup t k

/-- `fs.writeFileSync`: overwrite the entry with this name if it exists,
otherwise append a new entry. Overwriting is not an error. -/
def storeInsert (s : Store) (k v : String) : Store :=
  match s with
  | [] => [(k, v)]
  | (k2, v2) :: t => if k2 = k then (k, v) :: t else (k2, v2) :: storeInsert t k v

/-- The output file name of a participant: `` `${name}.png` `` with the
normalized name (`src/Server.js` line 108). -/
def certFileName (raw : String) : String :=
  normalizeName raw ++ ".png"

/-- The generation loop (`src/Server.js` lines 92-111): for each raw
participant line, normalize it and write the rendered PNG under
`certFileName`. `render` abstracts the canvas pipeline (template copy, font,
fill color, position, PNG encoding); its output depends on the drawn text,
which is the normalized name. -/
def generateCertificates (render : String → String) (names : List String)
    (dir : Store) : Store :=
  names.foldl (fun d raw => storeInsert d (certFileName raw) (render (normalizeName raw))) dir

/-- The archive build (`src/Server.js` lines 113-119): `zip.addLocalFile` for
every file `fs.readdirSync` lists in the certificates directory. -/
def buildZip (dir : Store) : Store :=
  dir

/-! ### The POST /generate-certificates handler -/

/-- The request: the two uploaded files (as their text/bytes content), `none`
when the multipart field is missing. Style and position fields are absorbed
into `render`; they never influence control flow, file names or cleanup. -/
structure GenRequest where
  template : Option String
  participants : Option String
deriving DecidableEq

/-- The response observable by the caller. -/
inductive GenResponse where
  | badRequest (error : String)
  | ok (zip : Store)
  | failed
deriving DecidableEq

/-- The server-side filesystem state touched by the handler: the multer
`uploads/` directory (stored blobs), the `certificates/` directory (`none` =
absent) and the `certificates.zip` archive (`none` = absent). -/
structure FSState where
  uploads : List String
  certsDir : Option Store
  zipFile : Option Store
deriving DecidableEq

/-- Multer stores every uploaded file into `uploads/` before the handler
body runs. -/
def multerSave (req : GenRequest) (fs : FSState) : FSState :=
  { fs with uploads := fs.uploads ++ req.template.toList ++ req.participants.toList }

/-- The `POST /generate-certificates` handler (`src/Server.js` lines 55-144
and 211-315). `cleanupUploads` selects the variant: variant 1 runs
`fs.emptyDirSync(uploadsDir)` in the download callback, variant 2 does not.
`downloadOk` is the outcome of streaming the archive (`err` argument of the
`res.download` callback). The template image is assumed readable (the
`loadImage` failure path is the generic 500 and touches no claim). -/
def handleGenerate (cleanupUploads : Bool) (render : String → String)
    (req : GenRequest) (fs0 : FSState) (downloadOk : Bool) : GenResponse × FSState :=
  let fs := multerSave req fs0
  match req.template, req.participants with
  | some _t, some pcontent =>
    let names := participantNamesOf pcontent
    if names = [] then
      (GenResponse.badRequest "The participants list is empty.", fs)
    else
      let dir0 := fs.certsDir.getD []
      let dir := generateCertificates render names dir0
      let zip := buildZip dir
      let resp := if downloadOk then GenResponse.ok zip else GenResponse.failed
      let fsAfter : FSState :=
        { uploads := if cleanupUploads then [] else fs.uploads
          certsDir := none
          zipFile := none }
      (resp, fsAfter)
  | _, _ =>
    (GenResponse.badRequest "Please upload both the template and participants files.", fs)

/-! ### The GET /fonts proxy -/

/-- An item of the upstream Google webfonts listing; `category` and `subsets`
stand for the upstream fields the handler does not forward. -/
structure GoogleFontItem where
  family : String
  variants : List String
  category : String
  subsets : List String
deriving DecidableEq

/-- The `{family, variants}` pair the handler returns per item. -/
structure FontEntry where
  family : String
  variants : List String
deriving DecidableEq

/-- The `/fonts` response: 200 with the JSON array, or 500 with `{error}`. -/
inductive FontsResponse where
  | ok (fonts : List FontEntry)
  | serverError (error : String)
deriving DecidableEq

/-- The upstream URL with the server-held credential
(`src/Server.js` line 42). -/
def apiUrlOf (apiKey : String) : String :=
  "https://www.googleapis.com/webfonts/v1/webfonts?key=" ++ apiKey

/-- The `GET /fonts` handler (`src/Server.js` lines 39-53): call the upstream
API and reshape `response.data.items`; any failure (network, non-2xx,
malformed body) lands in the catch block, which answers 500 with the fixed
message. `fetch` abstracts `axios.get` plus the `.data.items` access. -/
def fontsHandler (apiKey : String)
    (fetch : String → Except String (List GoogleFontItem)) : FontsResponse :=
  match fetch (apiUrlOf apiKey) with
  | Except.ok items =>
    FontsResponse.ok (items.map fun f => { family := f.family, variants := f.variants })
  | Except.error _ => FontsResponse.serverError "Failed to fetch fonts."

/-! ### path.join segment resolution -/

/-- Split a path on the separator. -/
def splitSlash : List Char → List (List Char)
  | [] => [[]]
  | c :: cs =>
    if c = '/' then [] :: splitSlash cs
    else
      match splitSlash cs with
      | [] => [[c]]
      | w :: ws => (c :: w) :: ws

/-- Normalization of a relative segment list as node `path.normalize` does:
drop empty and `.` segments, let `..` pop the previous segment, keep excess
`..` at the front. -/
def resolveRel (segs : List (List Char)) : List (List Char) :=
  segs.foldl
    (fun acc seg =>
      if seg = [] ∨ seg = ['.'] then acc
      else if seg = ['.', '.'] then
        match acc.getLast? with
        | some l => if l = ['.', '.'] then acc ++ [seg] else acc.dropLast
        | none => acc ++ [seg]
      else acc ++ [seg])
    []

/-- Join separator back in. -/
def joinSlash : List (List Char) → List Char
  | [] => []
  | [w] => w
  | w :: ws => w ++ '/' :: joinSlash ws

/-- Model of node `path.join(a, b)` for relative paths: concatenate with a
separator and normalize. -/
def joinPath (a b : String) : String :=
  String.mk (joinSlash (resolveRel (splitSlash (a.data ++ '/' :: b.data))))

/-- The full path `fs.writeFileSync` receives for a raw participant line
(`src/Server.js` line 108), relative to `__dirname`:
`path.join('certificates/', `${name}.png`)`. -/
def certPathFor (raw : String) : String :=
  joinPath "certificates/" (certFileName raw)

example : joinPath "certificates/" "Alice Smith.png" = "certificates/Alice Smith.png" := by
  decide
example : certPathFor "alice smith" = "certificates/Alice Smith.png" := by decide

/-! ### String append facts -/

theorem data_append (a b : String) : (a ++ b).data = a.data ++ b.data := by
  cases a
  cases b
  rfl

theorem string_append_right_cancel {a b c : String} (h : a ++ c = b ++ c) : a = b := by
  have hd : a.data ++ c.data = b.data ++ c.data := by
    have h1 := congrArg String.data h
    rw [data_append, data_append] at h1
    exact h1
  have h2 : a.data = b.data := by
    apply List.append_cancel_right hd
  cases a
  cases b
  exact congrArg String.mk h2

theorem certFileName_inj {r1 r2 : String} (h : certFileName r1 = certFileName r2) :
    normalizeName r1 = normalizeName r2 :=
  string_append_right_cancel h

/-! ### Space counting: normalization preserves interior spacing -/

theorem splitSp_length (l : List Char) : (splitSp l).length = l.count ' ' + 1 := by
  induction l with
  | nil => rfl
  | cons c cs ih =>
    rw [splitSp]
    by_cases hc : c = ' '
    · rw [if_pos hc, List.length_cons, ih, List.count_cons, if_pos (by simp [hc])]
    · rw [if_neg hc]
      rcases hsp : splitSp cs with _ | ⟨w, ws⟩
      · exact absurd hsp (splitSp_ne_nil cs)
      · rw [List.count_cons, if_neg (by simp [hc])]
        have := ih
        rw [hsp] at this
        simpa using this

theorem joinSp_count {ws : List (List Char)} (h : ∀ w ∈ ws, ' ' ∉ w) :
    (joinSp ws).count ' ' = ws.length - 1 := by
  induction ws with
  | nil => rfl
  | cons w rest ih =>
    cases rest with
    | nil =>
      rw [joinSp]
      simp [List.count_eq_zero]
      exact h w (List.mem_cons_self _ _)
    | cons w2 rest2 =>
      rw [joinSp_cons_cons, List.count_append, List.count_cons]
      have hw : (w.count ' ') = 0 :=
        List.count_eq_zero.mpr (h w (List.mem_cons_self _ _))
      have hr := ih (fun x hx => h x (List.mem_cons.mpr (Or.inr hx)))
      rw [hw, hr]
      simp

theorem normalizeList_count (l : List Char) :
    (normalizeList l).count ' ' = (jsTrim l).count ' ' := by
  rw [normalizeList, joinSp_count, List.length_map, splitSp_length]
  · simp
  · intro w hw
    rw [List.mem_map] at hw
    obtain ⟨w0, hw0, hcap⟩ := hw
    rw [← hcap]
    exact capWord_no_space (mem_splitSp_no_space hw0)

/-! ### Facts about the directory store and the generation loop -/

theorem storeLookup_insert_self (s : Store) (k v : String) :
    storeLookup (storeInsert s k v) k = some v := by
  induction s with
  | nil => simp [storeInsert, storeLookup]
  | cons e t ih =>
    obtain ⟨k2, v2⟩ := e
    rw [storeInsert]
    by_cases hk : k2 = k
    · rw [if_pos hk, storeLookup, if_pos rfl]
    · rw [if_neg hk, storeLookup, if_neg hk]
      exact ih

theorem storeLookup_insert_ne (s : Store) {k f : String} (v : String) (h : f ≠ k) :
    storeLookup (storeInsert s k v) f = storeLookup s f := by
  induction s with
  | nil =>
    simp only [storeInsert, storeLookup]
    rw [if_neg (fun hh : k = f => h hh.symm)]
  | cons e t ih =>
    obtain ⟨k2, v2⟩ := e
    rw [storeInsert]
    by_cases hk : k2 = k
    · rw [if_pos hk]
      simp only [storeLookup]
      rw [if_neg (fun hh : k = f => h hh.symm),
        if_neg (fun hh : k2 = f => h ((hk.symm.trans hh)).symm)]
    · rw [if_neg hk, storeLookup, storeLookup]
      by_cases hf : k2 = f
      · rw [if_pos hf, if_pos hf]
      · rw [if_neg hf, if_neg hf]
        exact ih

theorem mem_keys_insert {s : Store} {k v f : String} :
    f ∈ (storeInsert s k v).map Prod.fst ↔ f ∈ s.map Prod.fst ∨ f = k := by
  induction s with
  | nil => simp [storeInsert]
  | cons e t ih =>
    obtain ⟨k2, v2⟩ := e
    rw [storeInsert]
    by_cases hk : k2 = k
    · rw [if_pos hk]
      subst hk
      simp
      tauto
    · rw [if_neg hk]
      simp only [List.map_cons, List.mem_cons]
      rw [ih]
      tauto

theorem insert_keys_nodup {s : Store} {k v : String}
    (h : (s.map Prod.fst).Nodup) : ((storeInsert s k v).map Prod.fst).Nodup := by
  induction s with
  | nil => simp [storeInsert]
  | cons e t ih =>
    obtain ⟨k2, v2⟩ := e
    rw [storeInsert]
    simp only [List.map_cons, List.nodup_cons] at h
    by_cases hk : k2 = k
    · rw [if_pos hk]
      subst hk
      simp only [List.map_cons, List.nodup_cons]
      exact h
    · rw [if_neg hk]
      simp only [List.map_cons, List.nodup_cons]
      constructor
      · rw [mem_keys_insert]
        intro hcase
        rcases hcase with h1 | h2
        · exact h.1 h1
        · exact hk h2
      · exact ih h.2

theorem gen_cons (render : String → String) (r : String) (rest : List String)
    (d : Store) :
    generateCertificates render (r :: rest) d =
      generateCertificates render rest
        (storeInsert d (certFileName r) (render (normalizeName r))) := rfl

theorem gen_lookup_of_forall_ne {render : String → String} {names : List String}
    {f : String} (h : ∀ raw ∈ names, certFileName raw ≠ f) :
    ∀ d : Store, storeLookup (generateCertificates render names d) f = storeLookup d f := by
  induction names with
  | nil => intro d; rfl
  | cons r rest ih =>
    intro d
    rw [gen_cons, ih (fun raw hraw => h raw (List.mem_cons.mpr (Or.inr hraw)))]
    exact storeLookup_insert_ne _ _
      (fun hh => h r (List.mem_cons_self _ _) hh.symm)

theorem gen_lookup_mem {render : String → String} {names : List String} :
    ∀ raw ∈ names, ∀ d : Store,
      storeLookup (generateCertificates render names d) (certFileName raw) =
        some (render (normalizeName raw)) := by
  induction names with
  | nil => intro raw h; simp at h
  | cons r rest ih =>
    intro raw hraw d
    rw [gen_cons]
    rcases List.mem_cons.mp hraw with h1 | h2
    · subst h1
      by_cases hex : ∃ r2 ∈ rest, certFileName r2 = certFileName raw
      · obtain ⟨r2, hr2mem, hr2eq⟩ := hex
        have hnorm : normalizeName r2 = normalizeName raw := certFileName_inj hr2eq
        rw [← hr2eq, ih r2 hr2mem, hnorm]
      · push_neg at hex
        rw [gen_lookup_of_forall_ne hex]
        exact storeLookup_insert_self _ _ _
    · exact ih raw h2 _

theorem gen_keys_nodup {render : String → String} {names : List String} :
    ∀ d : Store, ((d : Store).map Prod.fst).Nodup →
      ((generateCertificates render names d).map Prod.fst).Nodup := by
  induction names with
  | nil => intro d h; exact h
  | cons r rest ih =>
    intro d h
    rw [gen_cons]
    exact ih _ (insert_keys_nodup h)

/-! ### Handler unfolding -/

theorem participantNamesOf_eq_nil_iff (content : String) :
    participantNamesOf content = [] ↔ ∀ l ∈ splitNl content.data, l = [] := by
  rw [participantNamesOf, List.map_eq_nil_iff, List.filter_eq_nil_iff]
  constructor
  · intro h l hl
    have := h l hl
    simpa using this
  · intro h l hl
    simp [h l hl]

theorem handleGenerate_of_empty {upl : Bool} {render : String → String}
    {t p : String} {fs0 : FSState} {ok : Bool} (h : participantNamesOf p = []) :
    handleGenerate upl render ⟨some t, some p⟩ fs0 ok =
      (GenResponse.badRequest "The participants list is empty.",
        multerSave ⟨some t, some p⟩ fs0) := by
  simp [handleGenerate, h]

theorem handleGenerate_of_valid {upl : Bool} {render : String → String}
    {t p : String} {fs0 : FSState} {ok : Bool} (h : participantNamesOf p ≠ []) :
    handleGenerate upl render ⟨some t, some p⟩ fs0 ok =
      ((if ok then
          GenResponse.ok (buildZip (generateCertificates render (participantNamesOf p)
            (fs0.certsDir.getD [])))
        else GenResponse.failed),
       { uploads := if upl then [] else fs0.uploads ++ [t, p]
         certsDir := none
         zipFile := none }) := by
  simp [handleGenerate, multerSave, h]

/-! ### The claims -/

/-- C1 counterexample: a request whose participants file is empty gets the
400 "list is empty" response, and afterwards the uploaded files are still in
the uploads directory — cleanup did not run, because cleanup lives only in
the `res.download` callback, which a 400 response never reaches. -/
theorem cleanup_not_run_on_empty_list_response :
    (handleGenerate true (fun n => n) ⟨some "TPL", some ""⟩ ⟨[], none, none⟩ true).1 =
      GenResponse.badRequest "The participants list is empty." ∧
    (handleGenerate true (fun n => n) ⟨some "TPL", some ""⟩ ⟨[], none, none⟩ true).2.uploads =
      ["TPL", ""] := by
  decide

/-- C1 (amended): cleanup runs only when the archive delivery is attempted.
On that path (non-empty participant list), after the response the
certificates directory and the archive file are absent, and variant 1
(`cleanupUploads = true`) also empties the uploads directory while variant 2
leaves the uploaded files in place. On the early 400 path no cleanup occurs
at all: the filesystem keeps the files multer stored. -/
theorem cleanup_after_download (upl : Bool) (render : String → String)
    (t p : String) (fs0 : FSState) (ok : Bool) :
    (participantNamesOf p ≠ [] →
      ((handleGenerate upl render ⟨some t, some p⟩ fs0 ok).2.certsDir = none ∧
       (handleGenerate upl render ⟨some t, some p⟩ fs0 ok).2.zipFile = none ∧
       (handleGenerate upl render ⟨some t, some p⟩ fs0 ok).2.uploads =
         (if upl then [] else fs0.uploads ++ [t, p]))) ∧
    (participantNamesOf p = [] →
      (handleGenerate upl render ⟨some t, some p⟩ fs0 ok).2 =
        multerSave ⟨some t, some p⟩ fs0) := by
  constructor
  · intro h
    rw [handleGenerate_of_valid h]
    exact ⟨rfl, rfl, rfl⟩
  · intro h
    rw [handleGenerate_of_empty h]

/-- C1 witness: on a delivered request (variant 1), the certificates
directory, the archive and the uploads contents are all gone. -/
theorem cleanup_after_download_witness :
    participantNamesOf "alice" ≠ [] ∧
    ((handleGenerate true (fun n => n) ⟨some "T", some "alice"⟩ ⟨[], none, none⟩ true).2.certsDir = none ∧
     (handleGenerate true (fun n => n) ⟨some "T", some "alice"⟩ ⟨[], none, none⟩ true).2.zipFile = none ∧
     (handleGenerate true (fun n => n) ⟨some "T", some "alice"⟩ ⟨[], none, none⟩ true).2.uploads =
       (if true then [] else [] ++ ["T", "alice"])) :=
  ⟨by decide,
    (cleanup_after_download true (fun n => n) "T" "alice" ⟨[], none, none⟩ true).1 (by decide)⟩

/-- C2 counterexample: consecutive spaces do not collapse under the
normalization of `src/Server.js` line 93 — `split(' ')` produces empty words
that `join(' ')` reproduces, so "ann  lee" and "ann lee" normalize to
different strings. -/
theorem consecutive_spaces_not_collapsed :
    normalizeName "ann  lee" ≠ normalizeName "ann lee" := by
  decide

/-- C2 (amended): normalization trims, splits on single spaces, uppercases
the first character of each word and rejoins with single spaces, but empty
words arising from consecutive spaces are preserved, never collapsed: the
count of interior spaces equals that of the trimmed input, and
"ann  lee" normalizes to "Ann  Lee" while "ann lee" normalizes to
"Ann Lee". -/
theorem normalizeName_structure :
    (∀ s : String, (normalizeName s).data.count ' ' = (jsTrim s.data).count ' ') ∧
    normalizeName "ann  lee" = "Ann  Lee" ∧ normalizeName "ann lee" = "Ann Lee" :=
  ⟨fun s => normalizeList_count s.data, by decide, by decide⟩

/-- C5 counterexample: a participants file holding a single whitespace-only
line — a blank line by any ordinary reading — is not filtered out by
`filter(Boolean)` (only the empty string is falsy), so the endpoint does not
answer 400: it generates a certificate for the empty normalized name
(file ".png") and delivers the archive. -/
theorem whitespace_line_not_treated_as_blank :
    (handleGenerate true (fun n => n) ⟨some "TPL", some " \n"⟩ ⟨[], none, none⟩ true).1 =
      GenResponse.ok [(".png", "")] ∧
    (handleGenerate true (fun n => n) ⟨some "TPL", some " \n"⟩ ⟨[], none, none⟩ true).1 ≠
      GenResponse.badRequest "The participants list is empty." := by
  decide

/-- C5 (amended): only empty (zero-character) lines are discarded by
`split('\n').filter(Boolean)`. A participants file in which every line is
empty yields the 400 "The participants list is empty." response, and the
filesystem is left exactly as multer stored it — in particular nothing is
written to the certificates directory. Whitespace-only lines, by contrast,
count as participants. -/
theorem empty_lines_give_400 (upl : Bool) (render : String → String)
    (t content : String) (fs0 : FSState) (ok : Bool)
    (h : ∀ l ∈ splitNl content.data, l = []) :
    handleGenerate upl render ⟨some t, some content⟩ fs0 ok =
      (GenResponse.badRequest "The participants list is empty.",
        multerSave ⟨some t, some content⟩ fs0) :=
  handleGenerate_of_empty ((participantNamesOf_eq_nil_iff content).mpr h)

/-- C5 witness: a participants file of two empty lines gets the 400 response
and leaves the certificates directory untouched. -/
theorem empty_lines_give_400_witness :
    (∀ l ∈ splitNl ("\n").data, l = []) ∧
    handleGenerate true (fun n => n) ⟨some "T", some "\n"⟩ ⟨[], none, none⟩ true =
      (GenResponse.badRequest "The participants list is empty.",
        multerSave ⟨some "T", some "\n"⟩ ⟨[], none, none⟩) :=
  ⟨by decide, empty_lines_give_400 true (fun n => n) "T" "\n" ⟨[], none, none⟩ true (by decide)⟩

/-- C4: starting from an absent certificates directory, the archive built
after the generation loop has an entry exactly for each name of the form
`certFileName raw` with `raw` in the participant list (one per unique
normalized name), its file names are free of duplicates, and each entry
holds the render of the normalized name — the `storeInsert` overwrite
(`fs.writeFileSync` on an existing path, last write wins) raised no error
and left a single entry. -/
theorem archive_one_entry_per_unique_name (render : String → String)
    (names : List String) (fname : String) (_hne : names ≠ []) :
    ((storeLookup (buildZip (generateCertificates render names [])) fname).isSome ↔
       ∃ raw ∈ names, fname = certFileName raw) ∧
    ((buildZip (generateCertificates render names [])).map Prod.fst).Nodup ∧
    (∀ raw ∈ names,
       storeLookup (buildZip (generateCertificates render names [])) (certFileName raw) =
         some (render (normalizeName raw))) := by
  refine ⟨⟨?_, ?_⟩, ?_, ?_⟩
  · intro h
    by_contra hex
    push_neg at hex
    have hne2 : ∀ raw ∈ names, certFileName raw ≠ fname :=
      fun raw hraw he => hex raw hraw he.symm
    rw [buildZip, gen_lookup_of_forall_ne hne2] at h
    simp [storeLookup] at h
  · rintro ⟨raw, hraw, rfl⟩
    rw [buildZip, gen_lookup_mem raw hraw]
    rfl
  · exact gen_keys_nodup [] (by simp)
  · intro raw hraw
    exact gen_lookup_mem raw hraw []

/-- C4 witness: two participants, duplicate normalized name "Bob Jones"
(the second occurrence differs in spacing only in case), produce exactly the
two expected entries. -/
theorem archive_one_entry_per_unique_name_witness :
    (["bob jones", "alice smith", "Bob jones"] ≠ ([] : List String)) ∧
    (((storeLookup (buildZip (generateCertificates (fun n => n)
          ["bob jones", "alice smith", "Bob jones"] [])) "Bob Jones.png").isSome ↔
       ∃ raw ∈ ["bob jones", "alice smith", "Bob jones"],
         "Bob Jones.png" = certFileName raw) ∧
     ((buildZip (generateCertificates (fun n => n)
         ["bob jones", "alice smith", "Bob jones"] [])).map Prod.fst).Nodup ∧
     (∀ raw ∈ ["bob jones", "alice smith", "Bob jones"],
        storeLookup (buildZip (generateCertificates (fun n => n)
            ["bob jones", "alice smith", "Bob jones"] [])) (certFileName raw) =
          some ((fun n => n) (normalizeName raw)))) :=
  ⟨by decide,
    archive_one_entry_per_unique_name (fun n => n)
      ["bob jones", "alice smith", "Bob jones"] "Bob Jones.png" (by decide)⟩

/-- C6: the fonts proxy returns, on upstream success, the 1:1
`{family, variants}` projection of the upstream item list; on any upstream
failure it returns the fixed message "Failed to fetch fonts.", which depends
neither on the upstream error detail nor on the server-held API key. -/
theorem fonts_proxy_contract (apiKey : String)
    (fetch : String → Except String (List GoogleFontItem)) :
    (∀ items, fetch (apiUrlOf apiKey) = Except.ok items →
       fontsHandler apiKey fetch =
         FontsResponse.ok (items.map fun f => ⟨f.family, f.variants⟩)) ∧
    (∀ e, fetch (apiUrlOf apiKey) = Except.error e →
       fontsHandler apiKey fetch = FontsResponse.serverError "Failed to fetch fonts.") := by
  constructor
  · intro items h
    simp [fontsHandler, h]
  · intro e h
    simp [fontsHandler, h]

/-- C6 witness: with a secret key and a failing upstream, the caller sees
only the generic message. -/
theorem fonts_proxy_contract_witness :
    ((fun _ : String => (Except.error "upstream exploded" : Except String (List GoogleFontItem)))
        (apiUrlOf "SECRETKEY") = Except.error "upstream exploded") ∧
    fontsHandler "SECRETKEY" (fun _ => Except.error "upstream exploded") =
      FontsResponse.serverError "Failed to fetch fonts." :=
  ⟨rfl, (fonts_proxy_contract "SECRETKEY" _).2 "upstream exploded" rfl⟩

/-- C7 counterexample: in variant 1 a non-numeric xPosition neither falls
back to 0 nor to a centered position — `parseInt` yields NaN and the NaN is
handed to `fillText` unchanged. -/
theorem nonnumeric_position_variant1_is_nan :
    adjustedPosition1 (some "abc") = JSVal.nan ∧
    JSVal.nan ≠ JSVal.num 0 ∧
    JSVal.nan ≠ JSVal.num (centerX 800 200) := by
  refine ⟨by decide, by simp, by simp⟩

/-- C7 (amended): positions are parsed with `parseInt(·, 10)`; when the
value is non-numeric, variant 1 passes NaN through with no fallback of any
kind, variant 2 falls back to the horizontal center for X and to the raw
(string) request value for Y; the 0 default applies only when the field is
absent. -/
theorem position_parsing_behavior :
    (∀ s, parseIntJS s = none → adjustedPosition1 (some s) = JSVal.nan) ∧
    (∀ s w tw, parseIntJS s = none →
       adjustedXPosition2 (some s) w tw = JSVal.num (centerX w tw)) ∧
    (∀ s, parseIntJS s = none → adjustedYPosition2 (some s) = rawField (some s)) ∧
    adjustedPosition1 none = JSVal.num 0 := by
  refine ⟨?_, ?_, ?_, by decide⟩
  · intro s h
    simp [adjustedPosition1, fieldString, h]
  · intro s w tw h
    simp [adjustedXPosition2, fieldString, h]
  · intro s h
    simp [adjustedYPosition2, fieldString, h]

/-- C7 witness: the value "oops" is non-numeric; variant 1 yields NaN,
variant 2 yields the centered X and the raw string Y. -/
theorem position_parsing_behavior_witness :
    parseIntJS "oops" = none ∧
    adjustedPosition1 (some "oops") = JSVal.nan ∧
    adjustedXPosition2 (some "oops") 640 100 = JSVal.num (centerX 640 100) ∧
    adjustedYPosition2 (some "oops") = rawField (some "oops") :=
  ⟨by decide,
    position_parsing_behavior.1 "oops" (by decide),
    position_parsing_behavior.2.1 "oops" 640 100 (by decide),
    position_parsing_behavior.2.2.1 "oops" (by decide)⟩

/-- C8: in the centered-fallback variant, any supplied xPosition that parses
to the integer 0 is falsy under `||`, so the centering computation is used
and the draw position cannot be the explicit x = 0 whenever the centered
value is nonzero. -/
theorem explicit_zero_x_is_centered (s : String) (w tw : ℚ)
    (h : parseIntJS s = some 0) :
    adjustedXPosition2 (some s) w tw = JSVal.num (centerX w tw) ∧
    (centerX w tw ≠ 0 → adjustedXPosition2 (some s) w tw ≠ JSVal.num 0) := by
  have h1 : adjustedXPosition2 (some s) w tw = JSVal.num (centerX w tw) := by
    simp [adjustedXPosition2, fieldString, h]
  refine ⟨h1, fun hc he => ?_⟩
  rw [h1] at he
  injection he with he2
  exact hc he2

/-- C8 witness: xPosition "0" on an 100-wide template with text width 40 is
drawn at the centered X, not at 0. -/
theorem explicit_zero_x_is_centered_witness :
    parseIntJS "0" = some 0 ∧
    (adjustedXPosition2 (some "0") 100 40 = JSVal.num (centerX 100 40) ∧
     (centerX 100 40 ≠ 0 → adjustedXPosition2 (some "0") 100 40 ≠ JSVal.num 0)) :=
  ⟨by decide, explicit_zero_x_is_centered "0" 100 40 (by decide)⟩

/-- C9: the normalized participant name is spliced into the output path with
no sanitization: the line "../evil" survives normalization unchanged, and
`path.join('certificates/', '../evil.png')` resolves to "evil.png", outside
the certificates working directory. -/
theorem participant_name_escapes_certificates_dir :
    normalizeName "../evil" = "../evil" ∧
    certPathFor "../evil" = "evil.png" ∧
    (("certificates".data).isPrefixOf (certPathFor "../evil").data) = false := by
  decide

/-- C10: in the centered-fallback variant, a non-numeric yPosition does not
become 0 or a computed value: `parseInt` yields NaN, `NaN || yPosition`
evaluates to the raw request value, and that string is what reaches the
text-drawing call. -/
theorem nonnumeric_y_passes_raw_string (s : String) (h : parseIntJS s = none) :
    adjustedYPosition2 (some s) = JSVal.str s ∧
    JSVal.str s ≠ JSVal.num 0 ∧ JSVal.str s ≠ JSVal.nan := by
  refine ⟨?_, by simp, by simp⟩
  simp [adjustedYPosition2, fieldString, h, rawField]

/-- C10 witness: yPosition "abc" reaches `fillText` as the string "abc". -/
theorem nonnumeric_y_passes_raw_string_witness :
    parseIntJS "abc" = none ∧
    (adjustedYPosition2 (some "abc") = JSVal.str "abc" ∧
     JSVal.str "abc" ≠ JSVal.num 0 ∧ JSVal.str "abc" ≠ JSVal.nan) :=
  ⟨by decide, nonnumeric_y_passes_raw_string "abc" (by decide)⟩

end CertMaker
